import Mathlib

/-!
Shallow embedding of the separate-chaining hash table implemented in
src/src/hash_table.cpp (namespace itis).  Integer keys are modelled as Int,
string values as String, bucket chains as lists, the double load factor as a
rational number, and the throwing constructor as an Except value.  The hash
function utils::hash (declared in a header that is not part of src/) is a
parameter h : Int → Nat → Nat throughout; HashContract states the contract the
spec gives for it.
-/

/-- A bucket is an ordered chain of key-value pairs, as in
using Bucket = std::list of pairs in the source. -/
abbrev Bucket := List (Int × String)

/-- The hash table state: the bucket array buckets_, the stored-key counter
num_keys_, and the configured threshold load_factor_. -/
structure HashTable where
  buckets_ : List Bucket
  num_keys_ : Nat
  load_factor_ : ℚ
deriving DecidableEq

/-- Accessor size() - returns num_keys_. -/
def HashTable.size (t : HashTable) : Nat := t.num_keys_

/-- Accessor capacity() - returns buckets_.size(). -/
def HashTable.capacity (t : HashTable) : Nat := t.buckets_.length

/-- Accessor load_factor() - returns load_factor_. -/
def HashTable.load_factor (t : HashTable) : ℚ := t.load_factor_

/-- Accessor empty() - size() == 0. -/
def HashTable.empty (t : HashTable) : Bool := t.size == 0

/-- Private method HashTable::hash - utils::hash(key, buckets_.size()). -/
def HashTable.hash (h : Int → Nat → Nat) (t : HashTable) (key : Int) : Nat :=
  h key t.buckets_.length

/-- The linear scan of a bucket performed by Search, Put and Remove: first
pair whose key matches, if any. -/
def findValue : Bucket → Int → Option String
  | [], _ => none
  | p :: rest, key => if p.1 = key then some p.2 else findValue rest key

/-- HashTable::Search - compute the bucket index from the current capacity and
linearly scan that bucket. -/
def HashTable.Search (h : Int → Nat → Nat) (t : HashTable) (key : Int) :
    Option String :=
  findValue (t.buckets_.getD (t.hash h key) []) key

/-- The in-place overwrite loop of HashTable::Put: replace the value of the
first pair whose key matches, leave everything else untouched. -/
def updateValue : Bucket → Int → String → Bucket
  | [], _, _ => []
  | p :: rest, key, value =>
      if p.1 = key then (p.1, value) :: rest else p :: updateValue rest key value

/-- The effect of std::list::remove(pair) used by HashTable::Remove: delete
every element equal to the given pair. -/
def removeAll : Bucket → (Int × String) → Bucket
  | [], _ => []
  | q :: rest, p => if q = p then removeAll rest p else q :: removeAll rest p

/-- The rehash loops of HashTable::Put: push each pair, in bucket order then
intra-bucket order, onto new_buckets at index utils::hash(key, new size). -/
def rehashPairs (h : Int → Nat → Nat) (m : Nat) :
    List (Int × String) → List Bucket → List Bucket
  | [], acc => acc
  | p :: rest, acc =>
      rehashPairs h m rest (acc.set (h p.1 m) (acc.getD (h p.1 m) [] ++ [p]))

/-- Build the new bucket array of a resize: m empty buckets filled from every
pair of the old array in iteration order. -/
def rehash (h : Int → Nat → Nat) (m : Nat) (bs : List Bucket) : List Bucket :=
  rehashPairs h m bs.flatten (List.replicate m [])

/-- Modelled from the spec: the growth coefficient is a fixed constant factor
greater than 1 applied to the integer bucket count on each resize.  The
constant kGrowthCoefficient lives in hash_table.hpp, which is not part of
src/; the smallest integer coefficient admitted by the spec is used. -/
def kGrowthCoefficient : Nat := 2

/-- HashTable::Put - overwrite in place if the key is already in its bucket;
otherwise append the pair, bump num_keys_, and when num_keys_ divided by the
bucket count reaches load_factor_ rebuild the bucket array at
kGrowthCoefficient times the old size. -/
def HashTable.Put (h : Int → Nat → Nat) (t : HashTable) (key : Int)
    (value : String) : HashTable :=
  let hashIndex := t.hash h key
  let bucket := t.buckets_.getD hashIndex []
  if (findValue bucket key).isSome then
    { t with buckets_ := t.buckets_.set hashIndex (updateValue bucket key value) }
  else
    let buckets' := t.buckets_.set hashIndex (bucket ++ [(key, value)])
    let numKeys' := t.num_keys_ + 1
    if t.load_factor_ ≤ (numKeys' : ℚ) / (t.buckets_.length : ℚ) then
      { buckets_ := rehash h (t.buckets_.length * kGrowthCoefficient) buckets',
        num_keys_ := numKeys',
        load_factor_ := t.load_factor_ }
    else
      { buckets_ := buckets', num_keys_ := numKeys', load_factor_ := t.load_factor_ }

/-- HashTable::Remove - scan the bucket selected by the current capacity; on a
match, copy the value, erase the pair via std::list::remove, and return the
copy.  Note that the source never decrements num_keys_ here; the model
faithfully keeps num_keys_ unchanged. -/
def HashTable.Remove (h : Int → Nat → Nat) (t : HashTable) (key : Int) :
    Option String × HashTable :=
  let index := t.hash h key
  let bucket := t.buckets_.getD index []
  match findValue bucket key with
  | some v =>
      (some v, { t with buckets_ := t.buckets_.set index (removeAll bucket (key, v)) })
  | none => (none, t)

/-- HashTable::ContainsKey - Search(key).has_value(). -/
def HashTable.ContainsKey (h : Int → Nat → Nat) (t : HashTable) (key : Int) :
    Bool :=
  (t.Search h key).isSome

/-- Accessor keys() - the std::unordered_set of all keys stored in the
buckets. -/
def HashTable.keys (t : HashTable) : Finset Int :=
  (t.buckets_.flatten.map Prod.fst).toFinset

/-- Accessor values() - all stored values in bucket order then intra-bucket
order. -/
def HashTable.values (t : HashTable) : List String :=
  t.buckets_.flatten.map Prod.snd

/-- The constructor HashTable::HashTable(capacity, load_factor): throws a
logic_error when capacity is not positive or the load factor is outside
the interval from 0 exclusive to 1 inclusive; otherwise allocates capacity
empty buckets. -/
def mkHashTable (capacity : Int) (load_factor : ℚ) : Except String HashTable :=
  if capacity ≤ 0 then
    Except.error "hash table capacity must be greater than zero"
  else if load_factor ≤ 0 ∨ 1 < load_factor then
    Except.error "hash table load factor must be in range [0...1]"
  else
    Except.ok
      { buckets_ := List.replicate capacity.toNat [],
        num_keys_ := 0,
        load_factor_ := load_factor }

/-- The contract the spec imposes on utils::hash: for a positive bucket count
the produced index is in range. -/
def HashContract (h : Int → Nat → Nat) : Prop :=
  ∀ (k : Int) (n : Nat), 0 < n → h k n < n

/-- States reachable from a successful construction by Put and Remove. -/
inductive Reachable (h : Int → Nat → Nat) : HashTable → Prop
  | construct (c : Int) (lf : ℚ) (t : HashTable) :
      mkHashTable c lf = Except.ok t → Reachable h t
  | put (t : HashTable) (k : Int) (v : String) :
      Reachable h t → Reachable h (t.Put h k v)
  | remove (t : HashTable) (k : Int) :
      Reachable h t → Reachable h (t.Remove h k).2

/-- The structural invariant of a table: a positive bucket count, every pair
sitting in the bucket selected by hashing its key with the current capacity,
and no duplicated key inside a bucket. -/
def Wf (h : Int → Nat → Nat) (t : HashTable) : Prop :=
  0 < t.capacity ∧
  (∀ i : Nat, ∀ p ∈ t.buckets_.getD i [], h p.1 t.capacity = i) ∧
  (∀ i : Nat, ((t.buckets_.getD i []).map Prod.fst).Nodup)

/-- A concrete range-correct hash function used to run the model on explicit
inputs. -/
def h0 : Int → Nat → Nat := fun k n => (k % (n : Int)).toNat

/-- A freshly constructed table with capacity 10 and load factor one half. -/
def t10 : HashTable :=
  { buckets_ := List.replicate 10 [], num_keys_ := 0, load_factor_ := mkRat 1 2 }

/-- A freshly constructed table with capacity 1 and load factor one half. -/
def t1 : HashTable :=
  { buckets_ := List.replicate 1 [], num_keys_ := 0, load_factor_ := mkRat 1 2 }

/-! ### Bucket-level lemmas about the linear scan -/

theorem findValue_eq_none {b : Bucket} {k : Int} :
    findValue b k = none ↔ ∀ p ∈ b, p.1 ≠ k := by
  induction b with
  | nil => simp [findValue]
  | cons p rest ih =>
      by_cases hp : p.1 = k
      · simp [findValue, hp]
      · simp [findValue, hp, ih]

theorem findValue_mem {b : Bucket} {k : Int} {v : String}
    (hfv : findValue b k = some v) : (k, v) ∈ b := by
  induction b with
  | nil => simp [findValue] at hfv
  | cons p rest ih =>
      by_cases hp : p.1 = k
      · simp [findValue, hp] at hfv
        have hpv : p = (k, v) := by
          obtain ⟨a, c⟩ := p
          simp_all
        rw [hpv]
        exact List.mem_cons_self ..
      · simp [findValue, hp] at hfv
        exact List.mem_cons_of_mem _ (ih hfv)

theorem findValue_eq_some_of_unique {b : Bucket} {k : Int} {v : String}
    (hmem : (k, v) ∈ b) (huniq : ∀ p ∈ b, p.1 = k → p.2 = v) :
    findValue b k = some v := by
  induction b with
  | nil => simp at hmem
  | cons p rest ih =>
      by_cases hp : p.1 = k
      · have : p.2 = v := huniq p (List.mem_cons_self ..) hp
        simp [findValue, hp, this]
      · have hmem' : (k, v) ∈ rest := by
          rcases List.mem_cons.1 hmem with h | h
          · exact absurd (congrArg Prod.fst h.symm) hp
          · exact h
        have huniq' : ∀ p ∈ rest, p.1 = k → p.2 = v := fun q hq =>
          huniq q (List.mem_cons_of_mem _ hq)
        simp [findValue, hp, ih hmem' huniq']

theorem findValue_append_none {b₁ b₂ : Bucket} {k : Int}
    (h1 : findValue b₁ k = none) :
    findValue (b₁ ++ b₂) k = findValue b₂ k := by
  induction b₁ with
  | nil => simp
  | cons p rest ih =>
      by_cases hp : p.1 = k
      · simp [findValue, hp] at h1
      · simp [findValue, hp] at h1 ⊢
        exact ih h1

theorem findValue_append_single_ne {b : Bucket} {k k' : Int} {v : String}
    (hne : k' ≠ k) : findValue (b ++ [(k, v)]) k' = findValue b k' := by
  induction b with
  | nil => simp [findValue, Ne.symm hne]
  | cons p rest ih =>
      by_cases hp : p.1 = k'
      · simp [findValue, hp]
      · simp [findValue, hp, ih]

theorem updateValue_map_fst (b : Bucket) (k : Int) (v : String) :
    (updateValue b k v).map Prod.fst = b.map Prod.fst := by
  induction b with
  | nil => simp [updateValue]
  | cons p rest ih =>
      by_cases hp : p.1 = k
      · simp [updateValue, hp]
      · simp [updateValue, hp, ih]

theorem findValue_updateValue_self {b : Bucket} {k : Int} (v : String)
    (hsome : (findValue b k).isSome) :
    findValue (updateValue b k v) k = some v := by
  induction b with
  | nil => simp [findValue] at hsome
  | cons p rest ih =>
      by_cases hp : p.1 = k
      · simp [updateValue, hp, findValue]
      · simp [findValue, hp] at hsome
        simp [updateValue, hp, findValue, ih hsome]

theorem findValue_updateValue_ne {b : Bucket} {k k' : Int} (v : String)
    (hne : k' ≠ k) :
    findValue (updateValue b k v) k' = findValue b k' := by
  induction b with
  | nil => simp [updateValue]
  | cons p rest ih =>
      by_cases hp : p.1 = k
      · simp [updateValue, hp, findValue, Ne.symm hne]
      · by_cases hq : p.1 = k'
        · simp [updateValue, hp, findValue, hq, hne]
        · simp [updateValue, hp, findValue, hq, ih]

theorem removeAll_sublist (b : Bucket) (p : Int × String) :
    List.Sublist (removeAll b p) b := by
  induction b with
  | nil => simp [removeAll]
  | cons q rest ih =>
      by_cases hq : q = p
      · simp only [removeAll, if_pos hq]
        exact ih.cons q
      · simp only [removeAll, if_neg hq]
        exact ih.cons₂ q

theorem mem_removeAll {b : Bucket} {p q : Int × String}
    (hq : q ∈ removeAll b p) : q ∈ b :=
  (removeAll_sublist b p).mem hq

theorem findValue_removeAll_ne {b : Bucket} {k k' : Int} {v : String}
    (hne : k' ≠ k) :
    findValue (removeAll b (k, v)) k' = findValue b k' := by
  induction b with
  | nil => simp [removeAll]
  | cons q rest ih =>
      by_cases hq : q = (k, v)
      · simp [removeAll, hq, findValue, Ne.symm hne, ih]
      · by_cases hk : q.1 = k'
        · simp [removeAll, hq, findValue, hk]
        · simp [removeAll, hq, findValue, hk, ih]

/-! ### Bucket-array indexing lemmas -/

theorem getD_set_self {l : List Bucket} {i : Nat} (x : Bucket)
    (hi : i < l.length) : (l.set i x).getD i [] = x := by
  rw [List.getD_eq_getElem?_getD, List.getElem?_set]
  simp [hi]

theorem getD_set_ne {l : List Bucket} {i j : Nat} (x : Bucket)
    (hne : j ≠ i) : (l.set i x).getD j [] = l.getD j [] := by
  rw [List.getD_eq_getElem?_getD, List.getElem?_set, if_neg (Ne.symm hne),
    ← List.getD_eq_getElem?_getD]

theorem getD_replicate_nil (n j : Nat) :
    (List.replicate n ([] : Bucket)).getD j [] = [] := by
  rw [List.getD_eq_getElem?_getD, List.getElem?_replicate]
  by_cases hj : j < n <;> simp [hj]

theorem mem_getD_flatten {bs : List Bucket} {j : Nat} {p : Int × String}
    (hp : p ∈ bs.getD j []) : p ∈ bs.flatten := by
  by_cases hj : j < bs.length
  · rw [List.getD_eq_getElem _ _ hj] at hp
    exact List.mem_flatten.2 ⟨bs[j], List.getElem_mem hj, hp⟩
  · rw [List.getD_eq_getElem?_getD, List.getElem?_eq_none (Nat.le_of_not_lt hj)] at hp
    simp at hp

theorem mem_flatten_iff_getD {bs : List Bucket} {p : Int × String} :
    p ∈ bs.flatten ↔ ∃ j : Nat, p ∈ bs.getD j [] := by
  constructor
  · intro hp
    obtain ⟨s, hs, hps⟩ := List.mem_flatten.1 hp
    obtain ⟨j, hj, hsj⟩ := List.mem_iff_getElem.1 hs
    exact ⟨j, by rw [List.getD_eq_getElem _ _ hj, hsj]; exact hps⟩
  · rintro ⟨j, hj⟩
    exact mem_getD_flatten hj

theorem mem_flatten_set_append {bs : List Bucket} {i : Nat} {q p : Int × String}
    (hi : i < bs.length) :
    p ∈ (bs.set i (bs.getD i [] ++ [q])).flatten ↔ p ∈ bs.flatten ∨ p = q := by
  constructor
  · intro hp
    obtain ⟨j, hj⟩ := mem_flatten_iff_getD.1 hp
    by_cases hji : j = i
    · subst hji
      rw [getD_set_self _ hi] at hj
      rcases List.mem_append.1 hj with hmem | hmem
      · exact Or.inl (mem_getD_flatten hmem)
      · exact Or.inr (List.mem_singleton.1 hmem)
    · rw [getD_set_ne _ hji] at hj
      exact Or.inl (mem_getD_flatten hj)
  · rintro (hp | rfl)
    · obtain ⟨j, hj⟩ := mem_flatten_iff_getD.1 hp
      by_cases hji : j = i
      · subst hji
        exact mem_getD_flatten (j := j)
          (by rw [getD_set_self _ hi]; exact List.mem_append_left _ hj)
      · exact mem_getD_flatten (j := j) (by rw [getD_set_ne _ hji]; exact hj)
    · exact mem_getD_flatten (j := i)
        (by rw [getD_set_self _ hi]; exact List.mem_append_right _ (List.mem_singleton.2 rfl))

/-! ### Rehash characterization -/

theorem rehashPairs_length (h : Int → Nat → Nat) (m : Nat)
    (ps : List (Int × String)) (acc : List Bucket) :
    (rehashPairs h m ps acc).length = acc.length := by
  induction ps generalizing acc with
  | nil => rfl
  | cons p rest ih =>
      rw [rehashPairs, ih, List.length_set]

theorem rehashPairs_getD (h : Int → Nat → Nat) (m : Nat)
    (ps : List (Int × String)) (acc : List Bucket)
    (hin : ∀ p ∈ ps, h p.1 m < acc.length) (j : Nat) :
    (rehashPairs h m ps acc).getD j [] =
      acc.getD j [] ++ ps.filter (fun p => h p.1 m == j) := by
  induction ps generalizing acc with
  | nil => simp [rehashPairs]
  | cons p rest ih =>
      have hp : h p.1 m < acc.length := hin p (List.mem_cons_self ..)
      have hrest : ∀ q ∈ rest, h q.1 m < (acc.set (h p.1 m) (acc.getD (h p.1 m) [] ++ [p])).length := by
        intro q hq
        rw [List.length_set]
        exact hin q (List.mem_cons_of_mem _ hq)
      rw [rehashPairs, ih _ hrest]
      by_cases hj : h p.1 m = j
      · subst hj
        rw [getD_set_self _ hp]
        simp [List.filter_cons]
      · rw [getD_set_ne _ (Ne.symm hj)]
        simp [List.filter_cons, hj]

theorem rehash_length (h : Int → Nat → Nat) (m : Nat) (bs : List Bucket) :
    (rehash h m bs).length = m := by
  rw [rehash, rehashPairs_length, List.length_replicate]

theorem rehash_getD (h : Int → Nat → Nat) (m : Nat) (bs : List Bucket)
    (hin : ∀ p ∈ bs.flatten, h p.1 m < m) (j : Nat) :
    (rehash h m bs).getD j [] = bs.flatten.filter (fun p => h p.1 m == j) := by
  rw [rehash, rehashPairs_getD h m _ _ (by simpa using hin) j, getD_replicate_nil]
  simp

/-! ### Shape lemmas unfolding the three branches of Put and two of Remove -/

theorem hash_def (h : Int → Nat → Nat) (t : HashTable) (k : Int) :
    t.hash h k = h k t.capacity := rfl

theorem capacity_def (t : HashTable) : t.capacity = t.buckets_.length := rfl

theorem put_found (h : Int → Nat → Nat) (t : HashTable) (k : Int) (v : String)
    (hf : (findValue (t.buckets_.getD (t.hash h k) []) k).isSome) :
    t.Put h k v =
      { t with buckets_ := t.buckets_.set (t.hash h k) (updateValue (t.buckets_.getD (t.hash h k) []) k v) } := by
  simp only [HashTable.Put]
  rw [if_pos hf]

theorem put_new_noresize (h : Int → Nat → Nat) (t : HashTable) (k : Int) (v : String)
    (hf : findValue (t.buckets_.getD (t.hash h k) []) k = none)
    (hth : ¬ t.load_factor_ ≤ ((t.num_keys_ + 1 : ℕ) : ℚ) / (t.buckets_.length : ℚ)) :
    t.Put h k v =
      { buckets_ :=
          t.buckets_.set (t.hash h k) (t.buckets_.getD (t.hash h k) [] ++ [(k, v)]),
        num_keys_ := t.num_keys_ + 1,
        load_factor_ := t.load_factor_ } := by
  simp only [HashTable.Put]
  rw [if_neg (by rw [hf]; simp), if_neg hth]

theorem put_new_resize (h : Int → Nat → Nat) (t : HashTable) (k : Int) (v : String)
    (hf : findValue (t.buckets_.getD (t.hash h k) []) k = none)
    (hth : t.load_factor_ ≤ ((t.num_keys_ + 1 : ℕ) : ℚ) / (t.buckets_.length : ℚ)) :
    t.Put h k v =
      { buckets_ :=
          rehash h (t.buckets_.length * kGrowthCoefficient)
            (t.buckets_.set (t.hash h k) (t.buckets_.getD (t.hash h k) [] ++ [(k, v)])),
        num_keys_ := t.num_keys_ + 1,
        load_factor_ := t.load_factor_ } := by
  simp only [HashTable.Put]
  rw [if_neg (by rw [hf]; simp), if_pos hth]

theorem remove_found (h : Int → Nat → Nat) (t : HashTable) (k : Int) (v : String)
    (hf : findValue (t.buckets_.getD (t.hash h k) []) k = some v) :
    t.Remove h k =
      (some v,
        { t with buckets_ := t.buckets_.set (t.hash h k) (removeAll (t.buckets_.getD (t.hash h k) []) (k, v)) }) := by
  simp only [HashTable.Remove]
  rw [hf]

theorem remove_none (h : Int → Nat → Nat) (t : HashTable) (k : Int)
    (hf : findValue (t.buckets_.getD (t.hash h k) []) k = none) :
    t.Remove h k = (none, t) := by
  simp only [HashTable.Remove]
  rw [hf]

/-! ### Constructor characterization -/

theorem mk_ok_iff (c : Int) (lf : ℚ) (t : HashTable) :
    mkHashTable c lf = Except.ok t ↔
      0 < c ∧ 0 < lf ∧ lf ≤ 1 ∧
        t = { buckets_ := List.replicate c.toNat [], num_keys_ := 0, load_factor_ := lf } := by
  constructor
  · intro hok
    by_cases hc : c ≤ 0
    · rw [mkHashTable, if_pos hc] at hok
      simp at hok
    · by_cases hlf : lf ≤ 0 ∨ 1 < lf
      · rw [mkHashTable, if_neg hc, if_pos hlf] at hok
        simp at hok
      · rw [mkHashTable, if_neg hc, if_neg hlf] at hok
        push_neg at hlf
        refine ⟨lt_of_not_le hc, hlf.1, hlf.2, ?_⟩
        injection hok with hok
        exact hok.symm
  · rintro ⟨h1, h2, h3, rfl⟩
    rw [mkHashTable, if_neg (not_le.2 h1),
      if_neg (by rw [not_or]; exact ⟨not_le.2 h2, not_lt.2 h3⟩)]

theorem mk_error_iff (c : Int) (lf : ℚ) :
    (∃ e, mkHashTable c lf = Except.error e) ↔ c ≤ 0 ∨ lf ≤ 0 ∨ 1 < lf := by
  by_cases hc : c ≤ 0
  · rw [mkHashTable, if_pos hc]
    exact iff_of_true ⟨_, rfl⟩ (Or.inl hc)
  · by_cases hlf : lf ≤ 0 ∨ 1 < lf
    · rw [mkHashTable, if_neg hc, if_pos hlf]
      exact iff_of_true ⟨_, rfl⟩ (Or.inr hlf)
    · rw [mkHashTable, if_neg hc, if_neg hlf]
      constructor
      · rintro ⟨e, he⟩
        simp at he
      · rintro (hbad | hbad | hbad)
        · exact (hc hbad).elim
        · exact (hlf (Or.inl hbad)).elim
        · exact (hlf (Or.inr hbad)).elim

/-! ### The invariant is established by construction and preserved by Put and Remove -/

theorem search_def (h : Int → Nat → Nat) (t : HashTable) (k : Int) :
    t.Search h k = findValue (t.buckets_.getD (t.hash h k) []) k := rfl

theorem wf_mk (h : Int → Nat → Nat) {c : Int} {lf : ℚ} {t : HashTable}
    (hok : mkHashTable c lf = Except.ok t) : Wf h t := by
  obtain ⟨h1, -, -, rfl⟩ := (mk_ok_iff c lf t).1 hok
  refine ⟨?_, ?_, ?_⟩
  · simp only [HashTable.capacity, List.length_replicate]
    omega
  · intro i p hp
    rw [getD_replicate_nil] at hp
    simp at hp
  · intro i
    rw [getD_replicate_nil]
    simp

theorem findValue_unique_of_nodup {b : Bucket} {k : Int} {v : String}
    (hnd : (b.map Prod.fst).Nodup) (hfv : findValue b k = some v) :
    ∀ q ∈ b, q.1 = k → q.2 = v := by
  induction b with
  | nil => simp
  | cons p rest ih =>
      intro q hq hqk
      rw [List.map_cons, List.nodup_cons] at hnd
      by_cases hp : p.1 = k
      · simp [findValue, hp] at hfv
        rcases List.mem_cons.1 hq with rfl | hq'
        · exact hfv
        · exfalso
          have hmem : k ∈ rest.map Prod.fst := List.mem_map.2 ⟨q, hq', hqk⟩
          exact (hp ▸ hnd.1) hmem
      · simp [findValue, hp] at hfv
        rcases List.mem_cons.1 hq with rfl | hq'
        · exact absurd hqk hp
        · exact ih hnd.2 hfv q hq' hqk

theorem search_some_mem {h : Int → Nat → Nat} {t : HashTable} {k : Int} {v : String}
    (hs : t.Search h k = some v) : (k, v) ∈ t.buckets_.flatten := by
  rw [search_def] at hs
  exact mem_getD_flatten (findValue_mem hs)

theorem search_unique {h : Int → Nat → Nat} {t : HashTable} (Hw : Wf h t)
    {k : Int} {v : String} (hs : t.Search h k = some v) :
    ∀ p ∈ t.buckets_.flatten, p.1 = k → p.2 = v := by
  intro p hp hpk
  obtain ⟨j, hj⟩ := mem_flatten_iff_getD.1 hp
  have h1 : h k t.buckets_.length = j := by
    have := Hw.2.1 j p hj
    rw [hpk] at this
    exact this
  have hji : t.hash h k = j := h1
  rw [search_def, hji] at hs
  exact findValue_unique_of_nodup (Hw.2.2 j) hs p hj hpk

theorem search_none_not_mem {h : Int → Nat → Nat} {t : HashTable} (Hw : Wf h t)
    {k : Int} (hs : t.Search h k = none) :
    ∀ p ∈ t.buckets_.flatten, p.1 ≠ k := by
  intro p hp hpk
  obtain ⟨j, hj⟩ := mem_flatten_iff_getD.1 hp
  have h1 : h k t.buckets_.length = j := by
    have := Hw.2.1 j p hj
    rw [hpk] at this
    exact this
  have hji : t.hash h k = j := h1
  rw [search_def, hji] at hs
  exact findValue_eq_none.1 hs p hj hpk

theorem wf_insert_new (h : Int → Nat → Nat) (Hc : HashContract h) (t : HashTable)
    (Hw : Wf h t) (k : Int) (v : String)
    (hnone : findValue (t.buckets_.getD (t.hash h k) []) k = none) :
    Wf h { buckets_ := t.buckets_.set (t.hash h k) (t.buckets_.getD (t.hash h k) [] ++ [(k, v)]),
           num_keys_ := t.num_keys_ + 1, load_factor_ := t.load_factor_ } := by
  have hi : t.hash h k < t.buckets_.length := Hc k t.buckets_.length Hw.1
  refine ⟨?_, ?_, ?_⟩
  · simp only [HashTable.capacity, List.length_set]
    exact Hw.1
  · intro j p hp
    simp only [HashTable.capacity, List.length_set] at hp ⊢
    by_cases hji : j = t.hash h k
    · subst hji
      rw [getD_set_self _ hi] at hp
      rcases List.mem_append.1 hp with hmem | hmem
      · exact Hw.2.1 _ p hmem
      · rw [List.mem_singleton.1 hmem]
        exact rfl
    · rw [getD_set_ne _ hji] at hp
      exact Hw.2.1 j p hp
  · intro j
    simp only []
    by_cases hji : j = t.hash h k
    · subst hji
      rw [getD_set_self _ hi, List.map_append]
      refine List.Nodup.append (Hw.2.2 _) (by simp) ?_
      intro x hx hx'
      simp only [List.map_cons, List.map_nil, List.mem_singleton] at hx'
      subst hx'
      obtain ⟨q, hq, hqx⟩ := List.mem_map.1 hx
      exact findValue_eq_none.1 hnone q hq hqx
    · rw [getD_set_ne _ hji]
      exact Hw.2.2 j

theorem flatten_map_fst_nodup (h : Int → Nat → Nat) (t : HashTable) (Hw : Wf h t) :
    (t.buckets_.flatten.map Prod.fst).Nodup := by
  rw [List.map_flatten, List.nodup_flatten]
  constructor
  · intro l hl
    obtain ⟨b, hb, rfl⟩ := List.mem_map.1 hl
    obtain ⟨j, hj, hbj⟩ := List.mem_iff_getElem.1 hb
    have hnd := Hw.2.2 j
    rw [List.getD_eq_getElem _ _ hj, hbj] at hnd
    exact hnd
  · rw [List.pairwise_iff_getElem]
    intro a c ha hc hac
    rw [List.length_map] at ha hc
    intro x hxa hxc
    rw [List.getElem_map] at hxa hxc
    obtain ⟨p, hp, hpx⟩ := List.mem_map.1 hxa
    obtain ⟨q, hq, hqx⟩ := List.mem_map.1 hxc
    have h1 : h p.1 t.buckets_.length = a :=
      Hw.2.1 a p (by rw [List.getD_eq_getElem _ _ ha]; exact hp)
    have h2 : h q.1 t.buckets_.length = c :=
      Hw.2.1 c q (by rw [List.getD_eq_getElem _ _ hc]; exact hq)
    rw [hpx] at h1
    rw [hqx] at h2
    rw [h1] at h2
    exact absurd h2 (Nat.ne_of_lt hac)

theorem wf_rehash (h : Int → Nat → Nat) (m : Nat) (hm : 0 < m) (bs : List Bucket)
    (hnd : (bs.flatten.map Prod.fst).Nodup)
    (hin : ∀ p ∈ bs.flatten, h p.1 m < m) :
    0 < (rehash h m bs).length ∧
    (∀ i : Nat, ∀ p ∈ (rehash h m bs).getD i [], h p.1 (rehash h m bs).length = i) ∧
    (∀ i : Nat, (((rehash h m bs).getD i []).map Prod.fst).Nodup) := by
  refine ⟨by rw [rehash_length]; exact hm, ?_, ?_⟩
  · intro i p hp
    rw [rehash_getD h m bs hin i] at hp
    rw [rehash_length]
    have := (List.mem_filter.1 hp).2
    simpa using this
  · intro i
    rw [rehash_getD h m bs hin i]
    exact List.Nodup.sublist (List.Sublist.map Prod.fst (List.filter_sublist _)) hnd

theorem wf_put (h : Int → Nat → Nat) (Hc : HashContract h) (t : HashTable)
    (Hw : Wf h t) (k : Int) (v : String) : Wf h (t.Put h k v) := by
  have hi : t.hash h k < t.buckets_.length := Hc k t.buckets_.length Hw.1
  by_cases hf : (findValue (t.buckets_.getD (t.hash h k) []) k).isSome
  · rw [put_found h t k v hf]
    refine ⟨?_, ?_, ?_⟩
    · simp only [HashTable.capacity, List.length_set]
      exact Hw.1
    · intro j p hp
      simp only [HashTable.capacity, List.length_set] at hp ⊢
      by_cases hji : j = t.hash h k
      · subst hji
        rw [getD_set_self _ hi] at hp
        have hx : p.1 ∈ (updateValue (t.buckets_.getD (t.hash h k) []) k v).map Prod.fst :=
          List.mem_map.2 ⟨p, hp, rfl⟩
        rw [updateValue_map_fst] at hx
        obtain ⟨q, hq, hqx⟩ := List.mem_map.1 hx
        rw [← hqx]
        exact Hw.2.1 _ q hq
      · rw [getD_set_ne _ hji] at hp
        exact Hw.2.1 j p hp
    · intro j
      by_cases hji : j = t.hash h k
      · subst hji
        have hset : ({ t with buckets_ := t.buckets_.set (t.hash h k) (updateValue (t.buckets_.getD (t.hash h k) []) k v) } : HashTable).buckets_.getD (t.hash h k) [] = updateValue (t.buckets_.getD (t.hash h k) []) k v := getD_set_self _ hi
        rw [hset, updateValue_map_fst]
        exact Hw.2.2 _
      · have hset : ({ t with buckets_ := t.buckets_.set (t.hash h k) (updateValue (t.buckets_.getD (t.hash h k) []) k v) } : HashTable).buckets_.getD j [] = t.buckets_.getD j [] := getD_set_ne _ hji
        rw [hset]
        exact Hw.2.2 j
  · have hf' : findValue (t.buckets_.getD (t.hash h k) []) k = none :=
      Option.not_isSome_iff_eq_none.1 hf
    have hmid := wf_insert_new h Hc t Hw k v hf'
    by_cases hth : t.load_factor_ ≤ ((t.num_keys_ + 1 : ℕ) : ℚ) / (t.buckets_.length : ℚ)
    · rw [put_new_resize h t k v hf' hth]
      have hm : 0 < t.buckets_.length * kGrowthCoefficient :=
        Nat.mul_pos Hw.1 (by norm_num [kGrowthCoefficient])
      have hnd := flatten_map_fst_nodup h _ hmid
      have hin : ∀ p ∈ (t.buckets_.set (t.hash h k) (t.buckets_.getD (t.hash h k) [] ++ [(k, v)])).flatten,
          h p.1 (t.buckets_.length * kGrowthCoefficient) < t.buckets_.length * kGrowthCoefficient :=
        fun p _ => Hc p.1 _ hm
      obtain ⟨w1, w2, w3⟩ := wf_rehash h (t.buckets_.length * kGrowthCoefficient) hm
        (t.buckets_.set (t.hash h k) (t.buckets_.getD (t.hash h k) [] ++ [(k, v)])) hnd hin
      exact ⟨w1, w2, w3⟩
    · rw [put_new_noresize h t k v hf' hth]
      exact hmid

theorem wf_remove (h : Int → Nat → Nat) (Hc : HashContract h) (t : HashTable)
    (Hw : Wf h t) (k : Int) : Wf h (t.Remove h k).2 := by
  have hi : t.hash h k < t.buckets_.length := Hc k t.buckets_.length Hw.1
  cases hfv : findValue (t.buckets_.getD (t.hash h k) []) k with
  | none =>
      rw [remove_none h t k hfv]
      exact Hw
  | some v =>
      rw [remove_found h t k v hfv]
      refine ⟨?_, ?_, ?_⟩
      · simp only [HashTable.capacity, List.length_set]
        exact Hw.1
      · intro j p hp
        simp only [HashTable.capacity, List.length_set] at hp ⊢
        by_cases hji : j = t.hash h k
        · subst hji
          rw [getD_set_self _ hi] at hp
          exact Hw.2.1 _ p (mem_removeAll hp)
        · rw [getD_set_ne _ hji] at hp
          exact Hw.2.1 j p hp
      · intro j
        by_cases hji : j = t.hash h k
        · subst hji
          have hset : ({ t with buckets_ := t.buckets_.set (t.hash h k) (removeAll (t.buckets_.getD (t.hash h k) []) (k, v)) } : HashTable).buckets_.getD (t.hash h k) [] = removeAll (t.buckets_.getD (t.hash h k) []) (k, v) := getD_set_self _ hi
          rw [hset]
          exact List.Nodup.sublist
            (List.Sublist.map Prod.fst (removeAll_sublist _ _)) (Hw.2.2 _)
        · have hset : ({ t with buckets_ := t.buckets_.set (t.hash h k) (removeAll (t.buckets_.getD (t.hash h k) []) (k, v)) } : HashTable).buckets_.getD j [] = t.buckets_.getD j [] := getD_set_ne _ hji
          rw [hset]
          exact Hw.2.2 j

theorem wf_reachable (h : Int → Nat → Nat) (Hc : HashContract h) {t : HashTable}
    (Hr : Reachable h t) : Wf h t := by
  induction Hr with
  | construct c lf t hok => exact wf_mk h hok
  | put t k v _ ih => exact wf_put h Hc t ih k v
  | remove t k _ ih => exact wf_remove h Hc t ih k

/-! ### How Put and Remove affect Search -/

theorem search_mk (h : Int → Nat → Nat) (bs : List Bucket) (n : Nat) (lf : ℚ)
    (k : Int) :
    HashTable.Search h ⟨bs, n, lf⟩ k = findValue (bs.getD (h k bs.length) []) k := rfl

theorem search_put (h : Int → Nat → Nat) (Hc : HashContract h) (t : HashTable)
    (Hw : Wf h t) (k k' : Int) (v : String) :
    (t.Put h k v).Search h k' = if k' = k then some v else t.Search h k' := by
  have hi : h k t.buckets_.length < t.buckets_.length := Hc k t.buckets_.length Hw.1
  by_cases hf : (findValue (t.buckets_.getD (t.hash h k) []) k).isSome
  · rw [put_found h t k v hf, search_mk]
    simp only [HashTable.hash]
    rw [List.length_set]
    by_cases hkk : k' = k
    · subst hkk
      rw [if_pos rfl, getD_set_self _ hi]
      exact findValue_updateValue_self v hf
    · rw [if_neg hkk, search_def]
      simp only [HashTable.hash]
      by_cases hji : h k' t.buckets_.length = h k t.buckets_.length
      · rw [hji, getD_set_self _ hi, findValue_updateValue_ne v hkk]
      · rw [getD_set_ne _ hji]
  · have hf' : findValue (t.buckets_.getD (t.hash h k) []) k = none :=
      Option.not_isSome_iff_eq_none.1 hf
    have hsk : t.Search h k = none := by rw [search_def]; exact hf'
    by_cases hth : t.load_factor_ ≤ ((t.num_keys_ + 1 : ℕ) : ℚ) / (t.buckets_.length : ℚ)
    · rw [put_new_resize h t k v hf' hth, search_mk]
      simp only [HashTable.hash]
      have hm : 0 < t.buckets_.length * kGrowthCoefficient :=
        Nat.mul_pos Hw.1 (by norm_num [kGrowthCoefficient])
      have hin : ∀ p ∈ (t.buckets_.set (h k t.buckets_.length)
            (t.buckets_.getD (h k t.buckets_.length) [] ++ [(k, v)])).flatten,
          h p.1 (t.buckets_.length * kGrowthCoefficient) <
            t.buckets_.length * kGrowthCoefficient :=
        fun p _ => Hc p.1 _ hm
      rw [rehash_length, rehash_getD _ _ _ hin]
      by_cases hkk : k' = k
      · subst hkk
        rw [if_pos rfl]
        apply findValue_eq_some_of_unique
        · refine List.mem_filter.2 ⟨?_, by simp⟩
          exact (mem_flatten_set_append hi).2 (Or.inr rfl)
        · intro p hp hpk
          rcases (mem_flatten_set_append hi).1 (List.mem_filter.1 hp).1 with hmem | rfl
          · exact absurd hpk (search_none_not_mem Hw hsk p hmem)
          · rfl
      · rw [if_neg hkk]
        cases hsv : t.Search h k' with
        | some v' =>
            apply findValue_eq_some_of_unique
            · refine List.mem_filter.2 ⟨?_, by simp⟩
              exact (mem_flatten_set_append hi).2 (Or.inl (search_some_mem hsv))
            · intro p hp hpk'
              rcases (mem_flatten_set_append hi).1 (List.mem_filter.1 hp).1 with hmem | rfl
              · exact search_unique Hw hsv p hmem hpk'
              · exact absurd hpk'.symm hkk
        | none =>
            rw [findValue_eq_none]
            intro p hp
            rcases (mem_flatten_set_append hi).1 (List.mem_filter.1 hp).1 with hmem | rfl
            · exact search_none_not_mem Hw hsv p hmem
            · exact fun he => hkk he.symm
    · rw [put_new_noresize h t k v hf' hth, search_mk]
      simp only [HashTable.hash]
      rw [List.length_set]
      by_cases hkk : k' = k
      · subst hkk
        rw [if_pos rfl, getD_set_self _ hi]
        have hf2 : findValue (t.buckets_.getD (h k' t.buckets_.length) []) k' = none := hf'
        rw [findValue_append_none hf2]
        simp [findValue]
      · rw [if_neg hkk, search_def]
        simp only [HashTable.hash]
        by_cases hji : h k' t.buckets_.length = h k t.buckets_.length
        · rw [hji, getD_set_self _ hi, findValue_append_single_ne hkk]
        · rw [getD_set_ne _ hji]

theorem search_remove_ne (h : Int → Nat → Nat) (t : HashTable) (k k' : Int)
    (hne : k' ≠ k) : ((t.Remove h k).2).Search h k' = t.Search h k' := by
  cases hfv : findValue (t.buckets_.getD (t.hash h k) []) k with
  | none => rw [remove_none h t k hfv]
  | some v =>
      have hi : t.hash h k < t.buckets_.length := by
        by_contra hge
        rw [List.getD_eq_getElem?_getD,
          List.getElem?_eq_none (Nat.le_of_not_lt hge)] at hfv
        simp [findValue] at hfv
      rw [remove_found h t k v hfv, search_mk]
      simp only [HashTable.hash]
      rw [List.length_set]
      by_cases hji : h k' t.buckets_.length = h k t.buckets_.length
      · rw [hji]
        have hi' : h k t.buckets_.length < t.buckets_.length := hi
        rw [getD_set_self _ hi', findValue_removeAll_ne hne, search_def]
        simp only [HashTable.hash]
        rw [hji]
      · have hji' : h k' t.buckets_.length ≠ h k t.buckets_.length := hji
        rw [getD_set_ne _ hji', search_def]
        simp only [HashTable.hash]

/-! ### Concrete instances used to witness the theorems -/

/-- A table holding exactly the entry (1, a) in its single bucket. -/
def tA : HashTable := { buckets_ := [[(1, "a")]], num_keys_ := 1, load_factor_ := mkRat 1 2 }

theorem h0_contract : HashContract h0 := by
  intro k n hn
  simp only [h0]
  have hne : (n : Int) ≠ 0 := by exact_mod_cast hn.ne'
  have h1 : 0 ≤ k % (n : Int) := Int.emod_nonneg k hne
  have h2 : k % (n : Int) < (n : Int) := Int.emod_lt_of_pos k (by exact_mod_cast hn)
  omega

theorem reach_t10 : Reachable h0 t10 :=
  Reachable.construct 10 (mkRat 1 2) t10 (by rfl)

theorem reach_t1 : Reachable h0 t1 :=
  Reachable.construct 1 (mkRat 1 2) t1 (by rfl)

/-! ### The claims -/

/-- C4: Construction(capacity, load_factor) fails with an InvalidArgument
condition exactly when capacity is nonpositive or the load factor lies outside
the interval from 0 exclusive to 1 inclusive, and no table exists in that
case; on success the table has exactly capacity empty buckets and size 0. -/
theorem construction_valid (c : Int) (lf : ℚ) :
    ((∃ e, mkHashTable c lf = Except.error e) ↔ c ≤ 0 ∨ lf ≤ 0 ∨ 1 < lf) ∧
    (∀ t, mkHashTable c lf = Except.ok t →
      (t.capacity : Int) = c ∧ (∀ b ∈ t.buckets_, b = []) ∧ t.size = 0 ∧
        t.load_factor = lf) := by
  refine ⟨mk_error_iff c lf, ?_⟩
  intro t hok
  obtain ⟨h1, -, -, rfl⟩ := (mk_ok_iff c lf t).1 hok
  refine ⟨?_, ?_, rfl, rfl⟩
  · simp only [HashTable.capacity, List.length_replicate]
    omega
  · intro b hb
    exact List.eq_of_mem_replicate hb

/-- Witness for C4 at capacity 5 and load factor one half. -/
theorem construction_valid_witness :
    ((⟨List.replicate 5 [], 0, mkRat 1 2⟩ : HashTable).capacity : Int) = 5 ∧
    (∀ b ∈ (⟨List.replicate 5 [], 0, mkRat 1 2⟩ : HashTable).buckets_, b = []) ∧
    (⟨List.replicate 5 [], 0, mkRat 1 2⟩ : HashTable).size = 0 ∧
    (⟨List.replicate 5 [], 0, mkRat 1 2⟩ : HashTable).load_factor = mkRat 1 2 :=
  (construction_valid 5 (mkRat 1 2)).2 _ (by rfl)

/-- C5: on any reachable table, Put(k, v) followed by Search(k) returns v,
for a deterministic in-range hash function. -/
theorem put_search_roundtrip (h : Int → Nat → Nat) (Hc : HashContract h)
    (t : HashTable) (Hr : Reachable h t) (k : Int) (v : String) :
    (t.Put h k v).Search h k = some v := by
  rw [search_put h Hc t (wf_reachable h Hc Hr) k k v, if_pos rfl]

/-- Witness for C5 on the table of capacity 10 with key 1. -/
theorem put_search_roundtrip_witness :
    HashContract h0 ∧ Reachable h0 t10 ∧
      (t10.Put h0 1 "a").Search h0 1 = some "a" :=
  ⟨h0_contract, reach_t10, put_search_roundtrip h0 h0_contract t10 reach_t10 1 "a"⟩

/-- C6: Put on an already-present key overwrites in place - size and capacity
are unchanged (no resize check runs) and Search then yields the new value. -/
theorem put_update_in_place (h : Int → Nat → Nat) (t : HashTable) (k : Int)
    (v₂ : String) (hp : (t.Search h k).isSome) :
    (t.Put h k v₂).size = t.size ∧ (t.Put h k v₂).capacity = t.capacity ∧
      (t.Put h k v₂).Search h k = some v₂ := by
  have hf : (findValue (t.buckets_.getD (t.hash h k) []) k).isSome := hp
  have hi : t.hash h k < t.buckets_.length := by
    by_contra hge
    rw [search_def, List.getD_eq_getElem?_getD,
      List.getElem?_eq_none (Nat.le_of_not_lt hge)] at hp
    simp [findValue] at hp
  rw [put_found h t k v₂ hf]
  refine ⟨rfl, ?_, ?_⟩
  · simp [HashTable.capacity, List.length_set]
  · rw [search_mk]
    simp only [HashTable.hash]
    rw [List.length_set]
    have hi' : h k t.buckets_.length < t.buckets_.length := hi
    rw [getD_set_self _ hi']
    exact findValue_updateValue_self v₂ hf

/-- Witness for C6 on a singleton table, overwriting value a with b. -/
theorem put_update_in_place_witness :
    (tA.Search h0 1).isSome ∧
    ((tA.Put h0 1 "b").size = tA.size ∧ (tA.Put h0 1 "b").capacity = tA.capacity ∧
      (tA.Put h0 1 "b").Search h0 1 = some "b") :=
  ⟨by decide, put_update_in_place h0 tA 1 "b" (by decide)⟩

/-- C8: Search on an absent key returns none (the model's Search is a pure
function, so it has no side effects), and Remove on an absent key returns
none and leaves the table - size, capacity and every bucket - unchanged. -/
theorem absent_no_mutation (h : Int → Nat → Nat) (t : HashTable) (k : Int)
    (habs : ∀ p ∈ t.buckets_.flatten, p.1 ≠ k) :
    t.Search h k = none ∧ t.Remove h k = (none, t) := by
  have hf : findValue (t.buckets_.getD (t.hash h k) []) k = none := by
    rw [findValue_eq_none]
    intro p hp
    exact habs p (mem_getD_flatten hp)
  exact ⟨by rw [search_def]; exact hf, remove_none h t k hf⟩

/-- Witness for C8 on a fresh table of capacity 10 with key 42. -/
theorem absent_no_mutation_witness :
    (∀ p ∈ t10.buckets_.flatten, p.1 ≠ 42) ∧
    (t10.Search h0 42 = none ∧ t10.Remove h0 42 = (none, t10)) :=
  ⟨by decide, absent_no_mutation h0 t10 42 (by decide)⟩

/-- C9: one Put changes capacity by at most one growth step - it is either
unchanged or multiplied once by the growth coefficient, hence never
decreases - and Remove never changes capacity.  Search and the accessors are
modelled as pure functions of the state, so they cannot change it. -/
theorem capacity_growth_step (h : Int → Nat → Nat) (t : HashTable) (k : Int)
    (v : String) :
    ((t.Put h k v).capacity = t.capacity ∨
      (t.Put h k v).capacity = t.capacity * kGrowthCoefficient) ∧
    t.capacity ≤ (t.Put h k v).capacity ∧
    ((t.Remove h k).2).capacity = t.capacity := by
  have hput : (t.Put h k v).capacity = t.capacity ∨
      (t.Put h k v).capacity = t.capacity * kGrowthCoefficient := by
    by_cases hf : (findValue (t.buckets_.getD (t.hash h k) []) k).isSome
    · left
      rw [put_found h t k v hf]
      simp [HashTable.capacity, List.length_set]
    · have hf' := Option.not_isSome_iff_eq_none.1 hf
      by_cases hth : t.load_factor_ ≤ ((t.num_keys_ + 1 : ℕ) : ℚ) / (t.buckets_.length : ℚ)
      · right
        rw [put_new_resize h t k v hf' hth]
        simp [HashTable.capacity, rehash_length]
      · left
        rw [put_new_noresize h t k v hf' hth]
        simp [HashTable.capacity, List.length_set]
  refine ⟨hput, ?_, ?_⟩
  · rcases hput with he | he
    · rw [he]
    · rw [he]
      exact Nat.le_mul_of_pos_right _ (by norm_num [kGrowthCoefficient])
  · cases hfv : findValue (t.buckets_.getD (t.hash h k) []) k with
    | none => rw [remove_none h t k hfv]
    | some v₀ =>
        rw [remove_found h t k v₀ hfv]
        simp [HashTable.capacity, List.length_set]

/-- C7: when inserting a new key pushes occupancy to the threshold, Put
resizes within the same call - the capacity is multiplied by the growth
coefficient (greater than 1), every pre-existing entry lands in the bucket
selected by hashing with the new capacity, and every previously stored key is
still found with its value. -/
theorem put_resize_correct (h : Int → Nat → Nat) (Hc : HashContract h)
    (t : HashTable) (Hr : Reachable h t) (k : Int) (v : String)
    (hnew : t.Search h k = none)
    (hth : t.load_factor ≤ ((t.size + 1 : ℕ) : ℚ) / (t.capacity : ℚ)) :
    1 < kGrowthCoefficient ∧
    (t.Put h k v).capacity = t.capacity * kGrowthCoefficient ∧
    (∀ p ∈ t.buckets_.flatten,
      p ∈ (t.Put h k v).buckets_.getD (h p.1 ((t.Put h k v).capacity)) []) ∧
    (∀ (k' : Int) (v' : String), t.Search h k' = some v' →
      (t.Put h k v).Search h k' = some v') := by
  have Hw := wf_reachable h Hc Hr
  have hf' : findValue (t.buckets_.getD (t.hash h k) []) k = none := hnew
  have hth' : t.load_factor_ ≤ ((t.num_keys_ + 1 : ℕ) : ℚ) / (t.buckets_.length : ℚ) := hth
  have hi : h k t.buckets_.length < t.buckets_.length := Hc k t.buckets_.length Hw.1
  have hm : 0 < t.buckets_.length * kGrowthCoefficient :=
    Nat.mul_pos Hw.1 (by norm_num [kGrowthCoefficient])
  refine ⟨by norm_num [kGrowthCoefficient], ?_, ?_, ?_⟩
  · rw [put_new_resize h t k v hf' hth']
    simp [HashTable.capacity, rehash_length]
  · intro p hp
    rw [put_new_resize h t k v hf' hth']
    simp only [HashTable.capacity]
    rw [rehash_length]
    have hin : ∀ q ∈ (t.buckets_.set (t.hash h k)
          (t.buckets_.getD (t.hash h k) [] ++ [(k, v)])).flatten,
        h q.1 (t.buckets_.length * kGrowthCoefficient) <
          t.buckets_.length * kGrowthCoefficient :=
      fun q _ => Hc q.1 _ hm
    rw [rehash_getD _ _ _ hin]
    refine List.mem_filter.2 ⟨?_, by simp⟩
    exact (mem_flatten_set_append hi).2 (Or.inl hp)
  · intro k' v' hk'
    have hkk : k' ≠ k := by
      intro he
      rw [he, hnew] at hk'
      simp at hk'
    rw [search_put h Hc t Hw k k' v, if_neg hkk, hk']

/-- Witness for C7: inserting key 5 into the capacity-1 table crosses the
one-half threshold and triggers the resize. -/
theorem put_resize_correct_witness :
    HashContract h0 ∧ Reachable h0 t1 ∧ t1.Search h0 5 = none ∧
    (t1.load_factor ≤ ((t1.size + 1 : ℕ) : ℚ) / (t1.capacity : ℚ)) ∧
    (1 < kGrowthCoefficient ∧
     (t1.Put h0 5 "x").capacity = t1.capacity * kGrowthCoefficient ∧
     (∀ p ∈ t1.buckets_.flatten,
       p ∈ (t1.Put h0 5 "x").buckets_.getD (h0 p.1 ((t1.Put h0 5 "x").capacity)) []) ∧
     (∀ (k' : Int) (v' : String), t1.Search h0 k' = some v' →
       (t1.Put h0 5 "x").Search h0 k' = some v')) :=
  ⟨h0_contract, reach_t1, by decide,
    by norm_num [t1, HashTable.load_factor, HashTable.size, HashTable.capacity],
    put_resize_correct h0 h0_contract t1 reach_t1 5 "x" (by decide)
      (by norm_num [t1, HashTable.load_factor, HashTable.size, HashTable.capacity])⟩

/-- C10: on any reachable table, Put(k, v) and Remove(k) do not change
Search(k') for any other key, for a deterministic in-range hash function. -/
theorem search_frame (h : Int → Nat → Nat) (Hc : HashContract h) (t : HashTable)
    (Hr : Reachable h t) (k k' : Int) (v : String) (hne : k' ≠ k) :
    (t.Put h k v).Search h k' = t.Search h k' ∧
    ((t.Remove h k).2).Search h k' = t.Search h k' := by
  refine ⟨?_, search_remove_ne h t k k' hne⟩
  rw [search_put h Hc t (wf_reachable h Hc Hr) k k' v, if_neg hne]

/-- Witness for C10 with keys 1 and 2 on the capacity-10 table. -/
theorem search_frame_witness :
    HashContract h0 ∧ Reachable h0 t10 ∧ (2 : Int) ≠ 1 ∧
    ((t10.Put h0 1 "a").Search h0 2 = t10.Search h0 2 ∧
     ((t10.Remove h0 1).2).Search h0 2 = t10.Search h0 2) :=
  ⟨h0_contract, reach_t10, by decide,
    search_frame h0 h0_contract t10 reach_t10 1 2 "a" (by decide)⟩

/-- C3 counterexample: on the freshly constructed capacity-1 table with load
factor one half, inserting one new key triggers the single resize, yet the
resulting state still has size divided by capacity equal to the load factor -
the strict under-threshold condition is not re-established. -/
theorem put_threshold_reestablish_cex :
    mkHashTable 1 (mkRat 1 2) = Except.ok t1 ∧
    ¬ (((t1.Put h0 5 "x").size : ℚ) / ((t1.Put h0 5 "x").capacity : ℚ) <
        (t1.Put h0 5 "x").load_factor) := by
  constructor
  · rfl
  · have e : t1.Put h0 5 "x" = ⟨[[], [(5, "x")]], 1, mkRat 1 2⟩ := by
      rw [put_new_resize h0 t1 5 "x" (by decide) (by norm_num [t1])]
      decide
    rw [e]
    norm_num [HashTable.size, HashTable.capacity, HashTable.load_factor]

/-- C3 amended: after Put inserts a new key, the threshold is checked once -
if it is reached, the capacity is multiplied by the growth coefficient exactly
once (with no re-check, so the state may stay at or above the threshold);
otherwise capacity is unchanged and size over capacity stays strictly below
the load factor. -/
theorem put_growth_once (h : Int → Nat → Nat) (t : HashTable) (k : Int)
    (v : String) (hnew : t.Search h k = none) :
    ((t.load_factor ≤ ((t.size + 1 : ℕ) : ℚ) / (t.capacity : ℚ)) →
       (t.Put h k v).capacity = t.capacity * kGrowthCoefficient) ∧
    (¬ (t.load_factor ≤ ((t.size + 1 : ℕ) : ℚ) / (t.capacity : ℚ)) →
       (t.Put h k v).capacity = t.capacity ∧
         ((t.Put h k v).size : ℚ) / ((t.Put h k v).capacity : ℚ) <
           (t.Put h k v).load_factor) := by
  have hf' : findValue (t.buckets_.getD (t.hash h k) []) k = none := hnew
  constructor
  · intro hth
    rw [put_new_resize h t k v hf' hth]
    simp [HashTable.capacity, rehash_length]
  · intro hth
    rw [put_new_noresize h t k v hf' hth]
    refine ⟨by simp [HashTable.capacity, List.length_set], ?_⟩
    simp only [HashTable.size, HashTable.capacity, HashTable.load_factor,
      List.length_set]
    exact lt_of_not_le hth

/-- Witness for the amended C3: inserting key 1 into the fresh capacity-10
table stays below the threshold and capacity is unchanged. -/
theorem put_growth_once_witness :
    t10.Search h0 1 = none ∧
    (((t10.load_factor ≤ ((t10.size + 1 : ℕ) : ℚ) / (t10.capacity : ℚ)) →
       (t10.Put h0 1 "a").capacity = t10.capacity * kGrowthCoefficient) ∧
     (¬ (t10.load_factor ≤ ((t10.size + 1 : ℕ) : ℚ) / (t10.capacity : ℚ)) →
       (t10.Put h0 1 "a").capacity = t10.capacity ∧
         ((t10.Put h0 1 "a").size : ℚ) / ((t10.Put h0 1 "a").capacity : ℚ) <
           (t10.Put h0 1 "a").load_factor)) :=
  ⟨by decide, put_growth_once h0 t10 1 "a" (by decide)⟩

/-- C1: running Put(1, a), Put(2, b), Remove(1) on the fresh capacity-10
table.  Remove does return the stored value and does delete the entry from
its bucket, but the source never decrements num_keys_, so size() stays 2
where the claim requires 1. -/
theorem remove_missing_decrement_eval :
    (((t10.Put h0 1 "a").Put h0 2 "b").Remove h0 1).1 = some "a" ∧
    (((t10.Put h0 1 "a").Put h0 2 "b").Remove h0 1).2.buckets_.flatten = [(2, "b")] ∧
    (((t10.Put h0 1 "a").Put h0 2 "b").Remove h0 1).2.size = 2 := by
  have e1 : t10.Put h0 1 "a" =
      ⟨[[], [(1, "a")], [], [], [], [], [], [], [], []], 1, mkRat 1 2⟩ := by
    rw [put_new_noresize h0 t10 1 "a" (by decide) (by norm_num [t10])]
    decide
  rw [e1]
  have e2 : (⟨[[], [(1, "a")], [], [], [], [], [], [], [], []], 1, mkRat 1 2⟩ : HashTable).Put h0 2 "b" =
      ⟨[[], [(1, "a")], [(2, "b")], [], [], [], [], [], [], []], 2, mkRat 1 2⟩ := by
    rw [put_new_noresize h0 _ 2 "b" (by decide) (by norm_num)]
    decide
  rw [e2]
  have e3 : (⟨[[], [(1, "a")], [(2, "b")], [], [], [], [], [], [], []], 2, mkRat 1 2⟩ : HashTable).Remove h0 1 =
      (some "a", ⟨[[], [], [(2, "b")], [], [], [], [], [], [], []], 2, mkRat 1 2⟩) := by
    rw [remove_found h0 _ 1 "a" (by decide)]
    decide
  rw [e3]
  exact ⟨rfl, by decide, rfl⟩

/-- C2: the reachable state obtained by Put(1, a) then Remove(1) on the fresh
capacity-10 table has size() equal to 1 while its buckets hold no entry at
all, so keys() and values() are empty rather than of length size(). -/
theorem size_entries_mismatch_eval :
    Reachable h0 ((t10.Put h0 1 "a").Remove h0 1).2 ∧
    ((t10.Put h0 1 "a").Remove h0 1).2.size = 1 ∧
    ((t10.Put h0 1 "a").Remove h0 1).2.buckets_.flatten.length = 0 ∧
    ((t10.Put h0 1 "a").Remove h0 1).2.keys.card = 0 ∧
    ((t10.Put h0 1 "a").Remove h0 1).2.values.length = 0 := by
  constructor
  · exact Reachable.remove _ 1 (Reachable.put t10 1 "a" reach_t10)
  · have e1 : t10.Put h0 1 "a" =
        ⟨[[], [(1, "a")], [], [], [], [], [], [], [], []], 1, mkRat 1 2⟩ := by
      rw [put_new_noresize h0 t10 1 "a" (by decide) (by norm_num [t10])]
      decide
    rw [e1]
    have e2 : (⟨[[], [(1, "a")], [], [], [], [], [], [], [], []], 1, mkRat 1 2⟩ : HashTable).Remove h0 1 =
        (some "a", ⟨[[], [], [], [], [], [], [], [], [], []], 1, mkRat 1 2⟩) := by
      rw [remove_found h0 _ 1 "a" (by decide)]
      decide
    rw [e2]
    refine ⟨rfl, by decide, ?_, by decide⟩
    simp [HashTable.keys]
